import Mathlib

/-!
# Verification of the rive-lang tokenizer (`src/lexer.rs`, `src/token.rs`)

A shallow embedding of the lexer: the source string is a `List Char`, the
cursor is a byte offset (`Nat`), and every scanning function of
`impl Lexer` is translated to a Lean function over the remaining character
list.  Rust's `pos += ch.len_utf8()` bookkeeping is recovered through
`utf8Len` of the consumed prefix; `str::parse::<i64>` / `<f64>` and checked
slicing (`str::get`) are modelled explicitly.
-/

namespace Rive

/-- Total UTF-8 byte length of a character list (models Rust `str::len` and
the cumulative `pos += ch.len_utf8()` updates). -/
def utf8Len : List Char → Nat
  | [] => 0
  | c :: cs => c.utf8Size + utf8Len cs

/-- Rust `char::is_whitespace`: the Unicode `White_Space` property. -/
def isRustWhitespace (c : Char) : Bool :=
  (0x09 ≤ c.toNat && c.toNat ≤ 0x0D) || c.toNat = 0x20 || c.toNat = 0x85 ||
  c.toNat = 0xA0 || c.toNat = 0x1680 ||
  (0x2000 ≤ c.toNat && c.toNat ≤ 0x200A) ||
  c.toNat = 0x2028 || c.toNat = 0x2029 || c.toNat = 0x202F ||
  c.toNat = 0x205F || c.toNat = 0x3000

set_option maxHeartbeats 1600000 in
/-- The token type of `src/token.rs` (`enum Token`).  `Float` carries the
exactly-parsed decimal value as a rational; the claims under study never
depend on IEEE-754 rounding, only on whether parsing succeeds and on the
sign of the result. -/
inductive Token where
  | Identifier (s : String)
  | Break | Const | Continue | Enum | False | Fn | For | Let | Loop
  | Match | Mod | Mut | Proto | Pub | Struct | True | Use | While
  | Int (n : Int)
  | Float (q : Rat)
  | String (s : String)
  | Char (c : Char)
  | Bool (b : Bool)
  | Amp | And | Arrow | Bang | Caret | Colon | Comma | Dot | DoubleColon
  | Eq | EqEq | Ge | Gt | LBrace | LBracket | LParen | LShift | Le | Lt
  | Minus | NotEq | Or | Percent | Pipe | Plus | RBrace | RBracket
  | RParen | RShift | RangeExclusive | RangeInclusive | Semicolon
  | Slash | Star | Tilde
  | Comment (s : String)
  | Unknown (c : Char)
  | UnterminatedString
  | UnterminatedChar
  | UnterminatedComment (s : String)
  | InvalidCharLiteral
deriving Repr

/-- `struct Span` of `src/token.rs`: byte offsets, `stop` is the source's
exclusive `end` field (`end` is a Lean keyword). -/
structure Span where
  start : Nat
  stop : Nat
deriving DecidableEq, Repr

/-- `struct WithSpan<T>` of `src/token.rs`. -/
structure WithSpan (α : Type) where
  value : α
  span : Span
deriving Repr

/-- The mutable state of `struct Lexer`: the byte-offset cursor `pos` and
the unconsumed part of the character iterator `chars`. -/
structure LexState where
  pos : Nat
  rest : List Char
deriving DecidableEq, Repr

/-- `Lexer::consume_while`: greedily take the prefix satisfying `p`,
returning (consumed prefix, remaining characters).  The consumed prefix is
exactly the slice `source[start..pos]` the Rust code returns. -/
def consumeWhile (p : Char → Bool) : List Char → List Char × List Char
  | [] => ([], [])
  | c :: cs =>
    if p c then
      let (t, r) := consumeWhile p cs
      (c :: t, r)
    else ([], c :: cs)

/-- Numeric value of a decimal digit string (used to model `str::parse`). -/
def digitsToNat (l : List Char) : Nat :=
  l.foldl (fun a c => a * 10 + (c.toNat - '0'.toNat)) 0

/-- `i64::MAX`. -/
def maxI64 : Nat := 9223372036854775807

/-- Models Rust `str::parse::<i64>()` on the slices the lexer produces
(nonempty, all decimal digits, no sign): succeeds exactly when the value
fits in `i64`, otherwise `Err` (here `none`). -/
def parseI64 (l : List Char) : Option Int :=
  if !l.isEmpty && l.all Char.isDigit && decide (digitsToNat l ≤ maxI64) then
    some (digitsToNat l)
  else none

/-- Models Rust `str::parse::<f64>()` on the slices the lexer produces
(`digits` or `digits '.' digits`): always succeeds on that shape (Rust
returns `Ok`, saturating to infinity rather than failing), yielding the
exact decimal value as a rational. -/
def parseF64 (l : List Char) : Option Rat :=
  match (consumeWhile Char.isDigit l).2 with
  | [] =>
    if (consumeWhile Char.isDigit l).1.isEmpty then none
    else some (digitsToNat (consumeWhile Char.isDigit l).1)
  | '.' :: fp =>
    if (!(consumeWhile Char.isDigit l).1.isEmpty || !fp.isEmpty) && fp.all Char.isDigit then
      some ((digitsToNat (consumeWhile Char.isDigit l).1 : Rat) +
        (digitsToNat fp : Rat) / (10 : Rat) ^ fp.length)
    else none
  | _ => none

/-- `Lexer::lex_number` (the first character `d` of the numeric slice is
already consumed; for a negative literal it is the first digit, since the
Rust code sets `start = pos - ch.len_utf8()` after consuming `-` and one
digit, so the parsed slice never contains the `-`). -/
def lexNumber (d : Char) (neg : Bool) (cs : List Char) : Option Token × List Char :=
  match (consumeWhile Char.isDigit cs).2 with
  | '.' :: r2 =>
    ((parseF64 (d :: (consumeWhile Char.isDigit cs).1 ++
        '.' :: (consumeWhile Char.isDigit r2).1)).map fun x =>
      Token.Float (if neg then -x else x), (consumeWhile Char.isDigit r2).2)
  | r1 => ((parseI64 (d :: (consumeWhile Char.isDigit cs).1)).map fun x =>
      Token.Int (if neg then -x else x), r1)

/-- The escaped/unescaped scanning loop of `Lexer::lex_string` (`value` is
the accumulated decoded text, `escaped` the flag). -/
def lexStringGo : List Char → Bool → String → Option Token × List Char
  | [], _, _ => (some Token.UnterminatedString, [])
  | c :: cs, true, value =>
    if c = 'n' then lexStringGo cs false (value.push '\n')
    else if c = 'r' then lexStringGo cs false (value.push '\r')
    else if c = 't' then lexStringGo cs false (value.push '\t')
    else if c = '\\' then lexStringGo cs false (value.push '\\')
    else if c = '"' then lexStringGo cs false (value.push '"')
    else lexStringGo cs false ((value.push '\\').push c)
  | c :: cs, false, value =>
    if c = '\\' then lexStringGo cs true value
    else if c = '"' then (some (Token.String value), cs)
    else lexStringGo cs false (value.push c)

/-- `Lexer::lex_string` (the opening `"` is already consumed). -/
def lexString (cs : List Char) : Option Token × List Char :=
  lexStringGo cs false ""

/-- The escape substitution of `Lexer::lex_char`: the five recognized
escapes decode, any other character is taken literally. -/
def charEsc (c : Char) : Char :=
  if c = 'n' then '\n'
  else if c = 'r' then '\r'
  else if c = 't' then '\t'
  else if c = '\\' then '\\'
  else if c = '\'' then '\''
  else c

/-- The closing-quote check of `Lexer::lex_char`: the next character is
consumed unconditionally; if it is not `'` the token degrades to
`InvalidCharLiteral` (no resynchronization). -/
def lexCharClose (ch : Char) : List Char → Option Token × List Char
  | [] => (some Token.UnterminatedChar, [])
  | q :: cs => if q = '\'' then (some (Token.Char ch), cs)
               else (some Token.InvalidCharLiteral, cs)

/-- `Lexer::lex_char` (the opening `'` is already consumed). -/
def lexChar : List Char → Option Token × List Char
  | [] => (some Token.UnterminatedChar, [])
  | c :: cs =>
    if c = '\\' then
      match cs with
      | [] => (some Token.UnterminatedChar, [])
      | e :: cs2 => lexCharClose (charEsc e) cs2
    else lexCharClose c cs

/-- The multi-line scanning loop of `Lexer::lex_comment`: consume until the
two-character terminator `*#` (both delimiter characters consumed, the
terminator excluded from the text), returning
(comment text, terminator found?, remaining characters).  When the
terminator is never found the whole remaining input is the text. -/
def commentLoop : List Char → List Char × Bool × List Char
  | [] => ([], false, [])
  | '*' :: '#' :: cs => ([], true, cs)
  | c :: cs => (c :: (commentLoop cs).1, (commentLoop cs).2.1, (commentLoop cs).2.2)

/-- `Lexer::lex_comment` (the leading `#` is already consumed). -/
def lexComment (cs : List Char) : Option Token × List Char :=
  match cs with
  | '*' :: cs2 =>
    if (commentLoop cs2).2.1 then
      (some (Token.Comment (String.mk (commentLoop cs2).1)), (commentLoop cs2).2.2)
    else
      (some (Token.UnterminatedComment (String.mk (commentLoop cs2).1)), (commentLoop cs2).2.2)
  | _ =>
    (some (Token.Comment (String.mk (consumeWhile (fun x => x ≠ '\n') cs).1)),
     (consumeWhile (fun x => x ≠ '\n') cs).2)

/-- The 18-entry keyword table of `Lexer::lex_identifier`.  As in the
source, `"false"` and `"true"` map to the `Bool` literal tokens, not to the
(declared but never produced) `False`/`True` variants. -/
def kwLookup (ident : String) : Token :=
  if ident = "break" then Token.Break
  else if ident = "const" then Token.Const
  else if ident = "continue" then Token.Continue
  else if ident = "enum" then Token.Enum
  else if ident = "fn" then Token.Fn
  else if ident = "for" then Token.For
  else if ident = "let" then Token.Let
  else if ident = "loop" then Token.Loop
  else if ident = "match" then Token.Match
  else if ident = "mod" then Token.Mod
  else if ident = "mut" then Token.Mut
  else if ident = "proto" then Token.Proto
  else if ident = "pub" then Token.Pub
  else if ident = "struct" then Token.Struct
  else if ident = "use" then Token.Use
  else if ident = "while" then Token.While
  else if ident = "false" then Token.Bool false
  else if ident = "true" then Token.Bool true
  else Token.Identifier ident

/-- `Lexer::lex_identifier` (first character `c` already consumed; the
slice `source[start..pos]` is `c` followed by the consumed run). -/
def lexIdentifier (c : Char) (cs : List Char) : Option Token × List Char :=
  (some (kwLookup (String.mk (c :: (consumeWhile (fun x => x.isAlphanum || x = '_') cs).1))),
   (consumeWhile (fun x => x.isAlphanum || x = '_') cs).2)

/-- `Lexer::either`: consume the lookahead character if it matches. -/
def either (toMatch : Char) (matched unmatched : Token) :
    List Char → Option Token × List Char
  | [] => (some unmatched, [])
  | c :: cs => if c = toMatch then (some matched, cs)
               else (some unmatched, c :: cs)

/-- `Lexer::lex`: the classification dispatch.  Returns `(none, _)` only
at end of input or when a numeric literal fails to parse (the `?`/`.ok()`
paths of `lex_number`). -/
def lex : List Char → Option Token × List Char
  | [] => (none, [])
  | '(' :: cs => (some Token.LParen, cs)
  | ')' :: cs => (some Token.RParen, cs)
  | '*' :: cs => (some Token.Star, cs)
  | '+' :: cs => (some Token.Plus, cs)
  | ',' :: cs => (some Token.Comma, cs)
  | '/' :: cs => (some Token.Slash, cs)
  | ';' :: cs => (some Token.Semicolon, cs)
  | '[' :: cs => (some Token.LBracket, cs)
  | ']' :: cs => (some Token.RBracket, cs)
  | '{' :: cs => (some Token.LBrace, cs)
  | '}' :: cs => (some Token.RBrace, cs)
  | '^' :: cs => (some Token.Caret, cs)
  | '~' :: cs => (some Token.Tilde, cs)
  | '%' :: cs => (some Token.Percent, cs)
  | '&' :: cs => either '&' Token.And Token.Amp cs
  | '|' :: cs => either '|' Token.Or Token.Pipe cs
  | ':' :: cs => either ':' Token.DoubleColon Token.Colon cs
  | '!' :: cs => either '=' Token.NotEq Token.Bang cs
  | '=' :: cs => either '=' Token.EqEq Token.Eq cs
  | '-' :: cs =>
    (match cs with
     | d :: cs2 =>
       if d.isDigit then lexNumber d true cs2
       else if d = '>' then (some Token.Arrow, cs2)
       else (some Token.Minus, d :: cs2)
     | [] => (some Token.Minus, []))
  | '<' :: cs =>
    (match cs with
     | d :: cs2 =>
       if d = '=' then (some Token.Le, cs2)
       else if d = '<' then (some Token.LShift, cs2)
       else (some Token.Lt, d :: cs2)
     | [] => (some Token.Lt, []))
  | '>' :: cs =>
    (match cs with
     | d :: cs2 =>
       if d = '=' then (some Token.Ge, cs2)
       else if d = '>' then (some Token.RShift, cs2)
       else (some Token.Gt, d :: cs2)
     | [] => (some Token.Gt, []))
  | '.' :: cs =>
    (match cs with
     | d :: cs2 =>
       if d = '.' then
         (match cs2 with
          | e :: cs3 =>
            if e = '=' then (some Token.RangeInclusive, cs3)
            else (some Token.RangeExclusive, e :: cs3)
          | [] => (some Token.RangeExclusive, []))
       else (some Token.Dot, d :: cs2)
     | [] => (some Token.Dot, []))
  | '#' :: cs => lexComment cs
  | '"' :: cs => lexString cs
  | '\'' :: cs => lexChar cs
  | c :: cs =>
    if c.isDigit then lexNumber c false cs
    else if c.isAlpha || c = '_' then lexIdentifier c cs
    else (some (Token.Unknown c), cs)

/-- `<Lexer as Iterator>::next`: skip whitespace, record the span start,
classify one lexeme, attach the span.  The cursor advance is the byte
length of whatever was consumed, so the span end is recovered as
`start + (utf8Len before lexing - utf8Len after lexing)`. -/
def pull (st : LexState) : Option (WithSpan Token × LexState) :=
  match lex (consumeWhile isRustWhitespace st.rest).2 with
  | (none, _) => none
  | (some t, r2) =>
    some (⟨t, ⟨st.pos + utf8Len (consumeWhile isRustWhitespace st.rest).1,
               st.pos + utf8Len (consumeWhile isRustWhitespace st.rest).1 +
                 (utf8Len (consumeWhile isRustWhitespace st.rest).2 - utf8Len r2)⟩⟩,
          ⟨st.pos + utf8Len (consumeWhile isRustWhitespace st.rest).1 +
             (utf8Len (consumeWhile isRustWhitespace st.rest).2 - utf8Len r2), r2⟩)

/-- The pull loop (`for token in lexer`), driven by explicit fuel; fuel
`rest.length + 1` is always sufficient because every produced token
consumes at least one character. -/
def lexRunF : Nat → LexState → List (WithSpan Token) × LexState
  | 0, st => ([], st)
  | n + 1, st =>
    match pull st with
    | none => ([], st)
    | some (t, st') => (t :: (lexRunF n st').1, (lexRunF n st').2)

/-- Run the lexer over a whole input from offset 0, returning every
produced spanned token and the final lexer state. -/
def lexAll (source : List Char) : List (WithSpan Token) × LexState :=
  lexRunF (source.length + 1) ⟨0, source⟩

/-- The token values produced for a string input (the `lex` helper of the
Rust test module). -/
def tokens (s : String) : List Token :=
  ((lexAll s.toList).1).map (fun t => t.value)

/-- Decomposition of an input buffer into the whitespace gaps and lexeme
slices of a produced token stream: `Covers pos buf toks final` states that
`buf` (starting at byte offset `pos`) splits into, for each token in
order, a run of skipped whitespace followed by the token's nonempty
lexeme — whose byte extent is exactly the token's span — with `final` the
unconsumed remainder. -/
inductive Covers : Nat → List Char → List (WithSpan Token) → List Char → Prop where
  | nil (pos : Nat) (rest : List Char) : Covers pos rest [] rest
  | cons (pos : Nat) (ws lexeme buf' final : List Char) (t : WithSpan Token)
      (toks : List (WithSpan Token))
      (hws : ∀ c ∈ ws, isRustWhitespace c = true)
      (hlex : lexeme ≠ [])
      (hstart : t.span.start = pos + utf8Len ws)
      (hstop : t.span.stop = pos + utf8Len ws + utf8Len lexeme)
      (hrec : Covers (pos + utf8Len ws + utf8Len lexeme) buf' toks final) :
      Covers pos (ws ++ (lexeme ++ buf')) (t :: toks) final

/-- `n` is a UTF-8 character-boundary byte offset of `source`. -/
def IsBoundary (source : List Char) (n : Nat) : Prop :=
  ∃ pre suf, source = pre ++ suf ∧ n = utf8Len pre

/-- Split a character list at a byte offset, as Rust checked slicing does:
`some` exactly when the offset is in bounds and on a character boundary. -/
def byteSplit (l : List Char) (n : Nat) : Option (List Char × List Char) :=
  if n = 0 then some ([], l)
  else
    match l with
    | [] => none
    | c :: cs =>
      if c.utf8Size ≤ n then
        (byteSplit cs (n - c.utf8Size)).map fun p => (c :: p.1, p.2)
      else none

/-- Models Rust `str::get(start..stop)`: the checked byte-range slice,
`none` on any out-of-bounds or non-boundary index (the case that would
make unchecked indexing `&s[start..stop]` panic). -/
def sliceGet (l : List Char) (a b : Nat) : Option (List Char) :=
  if b < a then none
  else (byteSplit l a).bind fun p => (byteSplit p.2 (b - a)).map fun q => q.1

/-- Negation of a numeric token's payload (`-x` applied to the parsed
value in `Lexer::lex_number`). -/
def tokNeg : Token → Token
  | Token.Int n => Token.Int (-n)
  | Token.Float q => Token.Float (-q)
  | t => t

end Rive

namespace Rive

theorem utf8Len_append (a b : List Char) :
    utf8Len (a ++ b) = utf8Len a + utf8Len b := by
  induction a with
  | nil => simp [utf8Len]
  | cons c cs ih => simp [utf8Len, ih]; omega

theorem utf8Len_pos {l : List Char} (h : l ≠ []) : 0 < utf8Len l := by
  cases l with
  | nil => exact absurd rfl h
  | cons c cs =>
    have := Char.utf8Size_pos c
    simp [utf8Len]; omega

theorem utf8Len_eq_zero {l : List Char} (h : utf8Len l = 0) : l = [] := by
  cases l with
  | nil => rfl
  | cons c cs =>
    have := Char.utf8Size_pos c
    simp [utf8Len] at h; omega

theorem consumeWhile_eq (p : Char → Bool) (l : List Char) :
    (consumeWhile p l).1 ++ (consumeWhile p l).2 = l := by
  induction l with
  | nil => simp [consumeWhile]
  | cons c cs ih =>
    by_cases h : p c = true
    · simp [consumeWhile, h, ih]
    · simp [consumeWhile, h]

theorem consumeWhile_mem (p : Char → Bool) (l : List Char) :
    ∀ c ∈ (consumeWhile p l).1, p c = true := by
  induction l with
  | nil => simp [consumeWhile]
  | cons c cs ih =>
    by_cases h : p c = true
    · simpa [consumeWhile, h] using ih
    · simp [consumeWhile, h]

theorem consumeWhile_maximal (p : Char → Bool) (l : List Char) :
    (consumeWhile p l).2 = [] ∨
      ∃ c cs, (consumeWhile p l).2 = c :: cs ∧ p c = false := by
  induction l with
  | nil => simp [consumeWhile]
  | cons c cs ih =>
    by_cases h : p c = true
    · simpa [consumeWhile, h] using ih
    · right; exact ⟨c, cs, by simp [consumeWhile, h], by simpa using h⟩

/-- `rest` is the unconsumed suffix of the input `l`. -/
def Consumes (l rest : List Char) : Prop := ∃ cfx, l = cfx ++ rest

theorem Consumes.refl (l : List Char) : Consumes l l := ⟨[], rfl⟩

theorem Consumes.trans {a b c : List Char} (h1 : Consumes a b)
    (h2 : Consumes b c) : Consumes a c := by
  obtain ⟨x, hx⟩ := h1
  obtain ⟨y, hy⟩ := h2
  exact ⟨x ++ y, by simp [hx, hy]⟩

theorem Consumes.cons {l rest : List Char} (c : Char) (h : Consumes l rest) :
    Consumes (c :: l) rest := by
  obtain ⟨x, hx⟩ := h
  exact ⟨c :: x, by simp [hx]⟩

theorem consumeWhile_consumes (p : Char → Bool) (l : List Char) :
    Consumes l (consumeWhile p l).2 :=
  ⟨(consumeWhile p l).1, (consumeWhile_eq p l).symm⟩

theorem lexStringGo_consumes (l : List Char) (esc : Bool) (v : String) :
    Consumes l (lexStringGo l esc v).2 := by
  induction l generalizing esc v with
  | nil => exact ⟨[], by simp [lexStringGo]⟩
  | cons c cs ih =>
    cases esc with
    | true =>
      simp only [lexStringGo]
      split_ifs <;> exact (ih _ _).cons c
    | false =>
      simp only [lexStringGo]
      split_ifs
      · exact (ih _ _).cons c
      · exact ⟨[c], by simp⟩
      · exact (ih _ _).cons c

theorem lexCharClose_consumes (ch : Char) (l : List Char) :
    Consumes l (lexCharClose ch l).2 := by
  cases l with
  | nil => exact ⟨[], by simp [lexCharClose]⟩
  | cons q cs =>
    simp only [lexCharClose]
    split_ifs <;> exact (Consumes.refl cs).cons q

theorem lexChar_consumes (l : List Char) : Consumes l (lexChar l).2 := by
  cases l with
  | nil => exact ⟨[], by simp [lexChar]⟩
  | cons c cs =>
    simp only [lexChar]
    split_ifs
    · cases cs with
      | nil => exact ⟨[c], by simp⟩
      | cons e cs2 => exact ((lexCharClose_consumes _ cs2).cons e).cons c
    · exact (lexCharClose_consumes c cs).cons c

theorem commentLoop_consumes (l : List Char) : Consumes l (commentLoop l).2.2 := by
  induction l with
  | nil => exact ⟨[], by simp [commentLoop]⟩
  | cons c cs ih =>
    rw [commentLoop.eq_def]
    split
    · rename_i heq; simp at heq
    · rename_i cs2 heq
      injection heq with h1 h2
      subst h1; subst h2
      exact ⟨['*', '#'], by simp⟩
    · rename_i c' cs' h1 h2 heq
      injection heq with h3 h4
      subst h3; subst h4
      exact ih.cons c

theorem lexComment_consumes (l : List Char) : Consumes l (lexComment l).2 := by
  rw [lexComment.eq_def]
  split
  · rename_i cs2
    split_ifs <;> exact (commentLoop_consumes cs2).cons '*'
  · exact consumeWhile_consumes _ _

theorem lexNumber_consumes (d : Char) (neg : Bool) (cs : List Char) :
    Consumes cs (lexNumber d neg cs).2 := by
  rw [lexNumber.eq_def]
  have h1 := consumeWhile_consumes Char.isDigit cs
  split
  · rename_i r2 heq
    refine h1.trans ?_
    rw [heq]
    exact (consumeWhile_consumes Char.isDigit r2).cons '.'
  · exact h1

theorem lexIdentifier_consumes (c : Char) (cs : List Char) :
    Consumes cs (lexIdentifier c cs).2 :=
  consumeWhile_consumes _ cs

theorem either_consumes (m : Char) (a b : Token) (l : List Char) :
    Consumes l (either m a b l).2 := by
  cases l with
  | nil => exact ⟨[], by simp [either]⟩
  | cons c cs =>
    simp only [either]
    split_ifs
    · exact ⟨[c], by simp⟩
    · exact Consumes.refl _

theorem lexString_consumes (l : List Char) : Consumes l (lexString l).2 :=
  lexStringGo_consumes l false ""

theorem consumes_cons_intro {k : Char} {cs rest : List Char}
    (h : Consumes cs rest) : ∃ c cfx, (k :: cs) = (c :: cfx) ++ rest := by
  obtain ⟨x, hx⟩ := h
  exact ⟨k, x, by rw [hx]; rfl⟩

theorem consumes_cons2_intro {k d : Char} {cs rest : List Char}
    (h : Consumes cs rest) : ∃ c cfx, (k :: d :: cs) = (c :: cfx) ++ rest := by
  obtain ⟨x, hx⟩ := h
  exact ⟨k, d :: x, by rw [hx]; rfl⟩

set_option maxHeartbeats 1000000 in
/-- `Lexer::lex` consumes at least the one character `self.next()` read,
and the remaining characters are a suffix of the input. -/
theorem lex_consumes (l : List Char) :
    l = [] ∨ ∃ c cfx, l = (c :: cfx) ++ (lex l).2 := by
  rw [lex.eq_def]
  split
  · left; rfl
  all_goals right
  all_goals (try split) <;> (try split_ifs) <;> (try split) <;> (try split_ifs) <;>
    first
    | exact ⟨_, [], rfl⟩
    | exact ⟨_, [_], rfl⟩
    | exact ⟨_, [_, _], rfl⟩
    | exact consumes_cons_intro (either_consumes _ _ _ _)
    | exact consumes_cons_intro (lexComment_consumes _)
    | exact consumes_cons_intro (lexString_consumes _)
    | exact consumes_cons_intro (lexChar_consumes _)
    | exact consumes_cons_intro (lexNumber_consumes _ _ _)
    | exact consumes_cons_intro (lexIdentifier_consumes _ _)
    | exact consumes_cons2_intro (lexNumber_consumes _ _ _)

theorem lexStringGo_ne_none (l : List Char) (esc : Bool) (v : String) :
    (lexStringGo l esc v).1 ≠ none := by
  induction l generalizing esc v with
  | nil => simp [lexStringGo]
  | cons c cs ih =>
    cases esc with
    | true =>
      simp only [lexStringGo]
      split_ifs <;> exact ih _ _
    | false =>
      simp only [lexStringGo]
      split_ifs
      · exact ih _ _
      · simp
      · exact ih _ _

theorem lexCharClose_ne_none (ch : Char) (l : List Char) :
    (lexCharClose ch l).1 ≠ none := by
  cases l with
  | nil => simp [lexCharClose]
  | cons q cs =>
    simp only [lexCharClose]
    split_ifs <;> simp

theorem lexChar_ne_none (l : List Char) : (lexChar l).1 ≠ none := by
  cases l with
  | nil => simp [lexChar]
  | cons c cs =>
    simp only [lexChar]
    split_ifs
    · cases cs with
      | nil => simp
      | cons e cs2 => exact lexCharClose_ne_none _ _
    · exact lexCharClose_ne_none _ _

theorem lexComment_ne_none (l : List Char) : (lexComment l).1 ≠ none := by
  rw [lexComment.eq_def]
  split
  · split_ifs <;> simp
  · simp

theorem lexString_ne_none (l : List Char) : (lexString l).1 ≠ none :=
  lexStringGo_ne_none l false ""

theorem lexIdentifier_ne_none (c : Char) (cs : List Char) :
    (lexIdentifier c cs).1 ≠ none := by
  simp [lexIdentifier]

theorem either_ne_none (m : Char) (a b : Token) (l : List Char) :
    (either m a b l).1 ≠ none := by
  cases l with
  | nil => simp [either]
  | cons c cs =>
    simp only [either]
    split_ifs <;> simp

set_option maxHeartbeats 1000000 in
/-- `Lexer::lex` returns no token only at end of input or when the lexeme
is a numeric literal (head a decimal digit, or `-` followed by a digit)
whose parse fails. -/
theorem lex_none {l : List Char} (h : (lex l).1 = none) :
    l = [] ∨ ∃ c cs, l = c :: cs ∧ (c.isDigit = true ∨ c = '-') := by
  rw [lex.eq_def] at h
  split at h <;> (try split at h) <;> (try split_ifs at h) <;>
      (try split at h) <;> (try split_ifs at h) <;>
    first
    | (left; rfl)
    | (simp at h)
    | exact absurd h (lexStringGo_ne_none _ _ _)
    | exact absurd h (lexChar_ne_none _)
    | exact absurd h (lexComment_ne_none _)
    | exact absurd h (either_ne_none _ _ _ _)
    | exact absurd h (lexIdentifier_ne_none _ _)
    | exact Or.inr ⟨_, _, rfl, Or.inr rfl⟩
    | exact Or.inr ⟨_, _, rfl, Or.inl (by assumption)⟩

/-- Structure of one successful pull (`<Lexer as Iterator>::next` returning
`Some`): the state's remaining input splits into a run of skipped
whitespace, a nonempty lexeme, and the new remaining input, and the span
delimits exactly the lexeme's byte extent. -/
theorem pull_spec {st : LexState} {t : WithSpan Token} {st' : LexState}
    (h : pull st = some (t, st')) :
    ∃ ws lexeme, st.rest = ws ++ (lexeme ++ st'.rest)
      ∧ (∀ c ∈ ws, isRustWhitespace c = true)
      ∧ lexeme ≠ []
      ∧ t.span.start = st.pos + utf8Len ws
      ∧ t.span.stop = st.pos + utf8Len ws + utf8Len lexeme
      ∧ st'.pos = t.span.stop := by
  rw [pull.eq_def] at h
  split at h
  · exact absurd h (by simp)
  · rename_i t0 r2 heq
    injection h with h1
    injection h1 with ht hst
    have hrest : st'.rest = r2 := by rw [← hst]
    rcases lex_consumes (consumeWhile isRustWhitespace st.rest).2 with hnil | ⟨c, cfx, hdec⟩
    · rw [hnil] at heq
      simp [lex] at heq
    · have hsplit : utf8Len (consumeWhile isRustWhitespace st.rest).2 =
          utf8Len (c :: cfx) + utf8Len r2 := by
        conv_lhs => rw [hdec, heq]
        exact utf8Len_append _ _
      refine ⟨(consumeWhile isRustWhitespace st.rest).1, c :: cfx, ?_, ?_, ?_, ?_, ?_, ?_⟩
      · rw [hrest]
        conv_lhs => rw [← consumeWhile_eq isRustWhitespace st.rest]
        congr 1
        rw [hdec, heq]
      · exact consumeWhile_mem _ _
      · simp
      · rw [← ht]
      · rw [← ht]
        simp only [WithSpan.span, Span.stop]
        omega
      · rw [← hst, ← ht]

theorem pull_some_length {st : LexState} {t : WithSpan Token} {st' : LexState}
    (h : pull st = some (t, st')) : st'.rest.length < st.rest.length := by
  obtain ⟨ws, lexeme, hdec, -, hlex, -⟩ := pull_spec h
  have : st.rest.length = ws.length + (lexeme.length + st'.rest.length) := by
    rw [hdec]; simp
  have : 0 < lexeme.length := List.length_pos.mpr hlex
  omega

/-- The rest (after the `pull = none` arm) of a run keeps the pre-pull
state, so the run's final state is the first state whose pull returns the
end-of-stream signal. -/
theorem lexRunF_spec (n : Nat) (st : LexState) (h : st.rest.length < n) :
    Covers st.pos st.rest (lexRunF n st).1 (lexRunF n st).2.rest
    ∧ pull (lexRunF n st).2 = none
    ∧ ∃ done, st.rest = done ++ (lexRunF n st).2.rest
        ∧ (lexRunF n st).2.pos = st.pos + utf8Len done := by
  induction n generalizing st with
  | zero => omega
  | succ n ih =>
    simp only [lexRunF]
    split
    · rename_i heq
      exact ⟨Covers.nil _ _, heq, [], by simp, by simp [utf8Len]⟩
    · rename_i t st' heq
      obtain ⟨ws, lexeme, hdec, hws, hlex, hstart, hstop, hpos⟩ := pull_spec heq
      have hlen : st'.rest.length < n := by
        have h1 := pull_some_length heq
        omega
      obtain ⟨ihc, ihn, done', hdone', hpos'⟩ := ih st' hlen
      have hp : st'.pos = st.pos + utf8Len ws + utf8Len lexeme := by
        rw [hpos, hstop]
      refine ⟨?_, ihn, ws ++ (lexeme ++ done'), ?_, ?_⟩
      · rw [hdec]
        refine Covers.cons _ ws lexeme st'.rest _ t _ hws hlex hstart hstop ?_
        rw [← hp]
        exact ihc
      · rw [hdec, hdone']
        simp
      · rw [hpos', hp, utf8Len_append, utf8Len_append]
        omega

theorem covers_mem_spans {pos : Nat} {buf : List Char}
    {toks : List (WithSpan Token)} {final : List Char}
    (h : Covers pos buf toks final) :
    ∀ t ∈ toks, pos ≤ t.span.start ∧ t.span.start ≤ t.span.stop := by
  induction h with
  | nil => simp
  | cons pos ws lexeme buf' final t toks hws hlex hstart hstop hrec ih =>
    intro u hu
    rcases List.mem_cons.mp hu with rfl | hu
    · rw [hstart, hstop]
      omega
    · have h1 := ih u hu
      omega

theorem covers_chain {pos : Nat} {buf : List Char}
    {toks : List (WithSpan Token)} {final : List Char}
    (h : Covers pos buf toks final) :
    List.Chain' (fun a b => a.span.stop ≤ b.span.start) toks := by
  induction h with
  | nil => exact List.chain'_nil
  | cons pos ws lexeme buf' final t toks hws hlex hstart hstop hrec ih =>
    cases toks with
    | nil => simp
    | cons t2 toks2 =>
      rw [List.chain'_cons]
      refine ⟨?_, ih⟩
      have h1 := (covers_mem_spans hrec t2 (List.mem_cons_self _ _)).1
      omega

theorem covers_pairwise {pos : Nat} {buf : List Char}
    {toks : List (WithSpan Token)} {final : List Char}
    (h : Covers pos buf toks final) :
    List.Pairwise (fun a b => a.span.stop ≤ b.span.start) toks := by
  induction h with
  | nil => exact List.Pairwise.nil
  | cons pos ws lexeme buf' final t toks hws hlex hstart hstop hrec ih =>
    refine List.Pairwise.cons ?_ ih
    intro u hu
    have h1 := (covers_mem_spans hrec u hu).1
    omega

theorem byteSplit_append (pre suf : List Char) :
    byteSplit (pre ++ suf) (utf8Len pre) = some (pre, suf) := by
  induction pre with
  | nil =>
    rw [byteSplit.eq_def]
    simp [utf8Len]
  | cons c cs ih =>
    have hpos := Char.utf8Size_pos c
    rw [byteSplit.eq_def]
    simp only [utf8Len, List.cons_append]
    rw [if_neg (by omega)]
    rw [if_pos (by omega : c.utf8Size ≤ c.utf8Size + utf8Len cs)]
    rw [(by omega : c.utf8Size + utf8Len cs - c.utf8Size = utf8Len cs), ih]
    simp

theorem prefix_decomp {p1 s1 p2 s2 : List Char}
    (h : p1 ++ s1 = p2 ++ s2) (hle : utf8Len p1 ≤ utf8Len p2) :
    ∃ mid, p2 = p1 ++ mid ∧ s1 = mid ++ s2 := by
  induction p1 generalizing p2 with
  | nil => exact ⟨p2, rfl, by simpa using h⟩
  | cons c cs ih =>
    cases p2 with
    | nil =>
      have := Char.utf8Size_pos c
      simp [utf8Len] at hle
      omega
    | cons c2 cs2 =>
      rw [List.cons_append, List.cons_append] at h
      injection h with hc ht
      subst hc
      have hle2 : utf8Len cs ≤ utf8Len cs2 := by
        simp only [utf8Len] at hle
        omega
      obtain ⟨mid, h1, h2⟩ := ih ht hle2
      exact ⟨mid, by rw [h1, List.cons_append], h2⟩

/-- Rust checked slicing succeeds between any two ordered character
boundaries: the panicking/`None` branches are unreachable there. -/
theorem sliceGet_boundaries {l : List Char} {a b : Nat}
    (ha : IsBoundary l a) (hb : IsBoundary l b) (hab : a ≤ b) :
    ∃ mid, sliceGet l a b = some mid := by
  obtain ⟨p1, s1, rfl, rfl⟩ := ha
  obtain ⟨p2, s2, heq, rfl⟩ := hb
  obtain ⟨mid, h1, h2⟩ := prefix_decomp heq hab
  refine ⟨mid, ?_⟩
  unfold sliceGet
  rw [if_neg (by omega)]
  rw [byteSplit_append p1 s1]
  simp only [Option.some_bind]
  have harith : utf8Len p2 - utf8Len p1 = utf8Len mid := by
    rw [h1, utf8Len_append]
    omega
  rw [harith, h2, byteSplit_append]
  simp

theorem covers_slices {pos : Nat} {buf : List Char}
    {toks : List (WithSpan Token)} {final : List Char}
    (h : Covers pos buf toks final) :
    ∀ acc, utf8Len acc = pos →
      ∀ t ∈ toks, ∃ lexeme, lexeme ≠ [] ∧
        sliceGet (acc ++ buf) t.span.start t.span.stop = some lexeme ∧
        IsBoundary (acc ++ buf) t.span.start ∧
        IsBoundary (acc ++ buf) t.span.stop := by
  induction h with
  | nil => simp
  | cons pos ws lexeme buf' final t toks hws hlex hstart hstop hrec ih =>
    intro acc hacc u hu
    have hbuf : acc ++ (ws ++ (lexeme ++ buf')) = (acc ++ ws) ++ (lexeme ++ buf') := by
      simp
    rcases List.mem_cons.mp hu with rfl | hu
    · refine ⟨lexeme, hlex, ?_, ?_, ?_⟩
      · rw [hbuf]
        unfold sliceGet
        rw [if_neg (by omega)]
        have hstart2 : u.span.start = utf8Len (acc ++ ws) := by
          rw [hstart, utf8Len_append, hacc]
        rw [hstart2, byteSplit_append]
        simp only [Option.some_bind]
        have harith : u.span.stop - utf8Len (acc ++ ws) = utf8Len lexeme := by
          rw [hstop, utf8Len_append, hacc]
          omega
        rw [harith]
        have hsplit2 : lexeme ++ buf' = lexeme ++ buf' := rfl
        rw [byteSplit_append lexeme buf']
        simp
      · refine ⟨acc ++ ws, lexeme ++ buf', by simp, ?_⟩
        rw [hstart, utf8Len_append, hacc]
      · refine ⟨(acc ++ ws) ++ lexeme, buf', by simp, ?_⟩
        rw [hstop, utf8Len_append, utf8Len_append, hacc]
    · have hlen : utf8Len (acc ++ (ws ++ lexeme)) = pos + utf8Len ws + utf8Len lexeme := by
        rw [utf8Len_append, utf8Len_append, hacc]
        omega
      have := ih (acc ++ (ws ++ lexeme)) hlen u hu
      simpa using this

theorem ite_ne {α : Type} (c : Prop) [Decidable c] {a b x : α}
    (ha : a ≠ x) (hb : b ≠ x) : (if c then a else b) ≠ x := by
  by_cases h : c
  · rw [if_pos h]; exact ha
  · rw [if_neg h]; exact hb

set_option maxHeartbeats 1000000 in
theorem kwLookup_no_kw_bool (s : String) :
    kwLookup s ≠ Token.True ∧ kwLookup s ≠ Token.False := by
  refine ⟨?_, ?_⟩ <;>
  · unfold kwLookup
    repeat' apply ite_ne
    all_goals exact fun hh => Token.noConfusion hh

theorem lexNumber_no_kw_bool (d : Char) (neg : Bool) (cs : List Char) (t : Token)
    (h : (lexNumber d neg cs).1 = some t) :
    t ≠ Token.True ∧ t ≠ Token.False := by
  rw [lexNumber.eq_def] at h
  split at h <;>
  · simp only [Option.map_eq_some'] at h
    obtain ⟨x, -, rfl⟩ := h
    simp

theorem lexStringGo_no_kw_bool (l : List Char) (esc : Bool) (v : String) (t : Token)
    (h : (lexStringGo l esc v).1 = some t) :
    t ≠ Token.True ∧ t ≠ Token.False := by
  induction l generalizing esc v with
  | nil =>
    simp [lexStringGo] at h
    subst h; simp
  | cons c cs ih =>
    cases esc with
    | true =>
      simp only [lexStringGo] at h
      split_ifs at h <;> exact ih _ _ h
    | false =>
      simp only [lexStringGo] at h
      split_ifs at h
      · exact ih _ _ h
      · simp at h; subst h; simp
      · exact ih _ _ h

theorem lexCharClose_no_kw_bool (ch : Char) (l : List Char) (t : Token)
    (h : (lexCharClose ch l).1 = some t) :
    t ≠ Token.True ∧ t ≠ Token.False := by
  cases l with
  | nil => simp [lexCharClose] at h; subst h; simp
  | cons q cs =>
    simp only [lexCharClose] at h
    split_ifs at h <;> (simp at h; subst h; simp)

theorem lexChar_no_kw_bool (l : List Char) (t : Token)
    (h : (lexChar l).1 = some t) :
    t ≠ Token.True ∧ t ≠ Token.False := by
  cases l with
  | nil => simp [lexChar] at h; subst h; simp
  | cons c cs =>
    simp only [lexChar] at h
    split_ifs at h
    · cases cs with
      | nil => simp at h; subst h; simp
      | cons e cs2 => exact lexCharClose_no_kw_bool _ _ _ h
    · exact lexCharClose_no_kw_bool _ _ _ h

theorem lexComment_no_kw_bool (l : List Char) (t : Token)
    (h : (lexComment l).1 = some t) :
    t ≠ Token.True ∧ t ≠ Token.False := by
  rw [lexComment.eq_def] at h
  split at h
  · split_ifs at h <;> (simp at h; subst h; simp)
  · simp at h; subst h; simp

theorem lexIdentifier_no_kw_bool (c : Char) (cs : List Char) (t : Token)
    (h : (lexIdentifier c cs).1 = some t) :
    t ≠ Token.True ∧ t ≠ Token.False := by
  simp only [lexIdentifier] at h
  simp at h
  subst h
  exact kwLookup_no_kw_bool _

theorem either_some (m : Char) (a b : Token) (l : List Char) (t : Token)
    (h : (either m a b l).1 = some t) : t = a ∨ t = b := by
  cases l with
  | nil => simp [either] at h; subst h; simp
  | cons c cs =>
    simp only [either] at h
    split_ifs at h <;> (simp at h; subst h; simp)

set_option maxHeartbeats 1000000 in
/-- `Lexer::lex` never produces the `Token::True` or `Token::False`
variants: the keyword table maps `true`/`false` to `Token::Bool`. -/
theorem lex_no_kw_bool (l : List Char) (t : Token)
    (h : (lex l).1 = some t) :
    t ≠ Token.True ∧ t ≠ Token.False := by
  rw [lex.eq_def] at h
  split at h <;> (try split at h) <;> (try split_ifs at h) <;>
      (try split at h) <;> (try split_ifs at h) <;>
    first
    | exact lexNumber_no_kw_bool _ _ _ _ h
    | exact lexStringGo_no_kw_bool _ _ _ _ h
    | exact lexChar_no_kw_bool _ _ h
    | exact lexComment_no_kw_bool _ _ h
    | exact lexIdentifier_no_kw_bool _ _ _ h
    | (rcases either_some _ _ _ _ _ h with rfl | rfl <;> simp)
    | (simp at h; subst h; simp)
    | (simp at h)

theorem pull_no_kw_bool {st : LexState} {t : WithSpan Token} {st' : LexState}
    (h : pull st = some (t, st')) :
    t.value ≠ Token.True ∧ t.value ≠ Token.False := by
  rw [pull.eq_def] at h
  split at h
  · exact absurd h (by simp)
  · rename_i t0 r2 heq
    injection h with h1
    injection h1 with ht hst
    have : t.value = t0 := by rw [← ht]
    rw [this]
    exact lex_no_kw_bool _ _ (by rw [heq])

theorem lexRunF_no_kw_bool (n : Nat) (st : LexState) (t : WithSpan Token)
    (h : t ∈ (lexRunF n st).1) :
    t.value ≠ Token.True ∧ t.value ≠ Token.False := by
  induction n generalizing st with
  | zero => simp [lexRunF] at h
  | succ n ih =>
    simp only [lexRunF] at h
    split at h
    · simp at h
    · rename_i t0 st' heq
      rcases List.mem_cons.mp h with rfl | h
      · exact pull_no_kw_bool heq
      · exact ih st' h

theorem commentLoop_unterminated {cs : List Char}
    (h : (commentLoop cs).2.1 = false) :
    (commentLoop cs).1 = cs ∧ (commentLoop cs).2.2 = [] := by
  induction cs with
  | nil => simp [commentLoop]
  | cons c cs ih =>
    rw [commentLoop.eq_def] at h ⊢
    split at h
    · simp at *
    · simp at h
    · rename_i c' cs' hh1 hh2 heq
      injection heq with h3 h4
      subst h3; subst h4
      simp only at h ⊢
      obtain ⟨ha, hb⟩ := ih h
      exact ⟨by rw [ha], hb⟩

theorem pull_none_cases {st : LexState} (h : pull st = none) :
    st.rest.all isRustWhitespace = true
    ∨ ∃ c cs, (consumeWhile isRustWhitespace st.rest).2 = c :: cs
        ∧ (c.isDigit = true ∨ c = '-') := by
  rw [pull.eq_def] at h
  split at h
  · rename_i heq
    have h0 : (lex (consumeWhile isRustWhitespace st.rest).2).1 = none := by rw [heq]
    rcases lex_none h0 with hnil | ⟨c, cs, hcs, hor⟩
    · left
      have hdec := consumeWhile_eq isRustWhitespace st.rest
      rw [hnil] at hdec
      rw [List.all_eq_true]
      intro x hx
      have hx2 : x ∈ (consumeWhile isRustWhitespace st.rest).1 := by
        rw [← hdec] at hx
        simpa using hx
      exact consumeWhile_mem _ _ x hx2
    · right
      exact ⟨c, cs, hcs, hor⟩
  · simp at h

/-- C1 (corrected).  Whenever non-whitespace input remains, a pull either
produces some token (in particular each of the five error conditions is
degraded to a sentinel token value in the normal output stream, and
lexing continues after it), or — the one exception the claim missed —
the lexeme is a numeric literal whose parse fails (i64 overflow), in
which case `lex` yields no token and the pull returns the end-of-stream
signal. -/
theorem claim_C1_sentinel_stream :
    (∀ (pos : Nat) (rest : List Char),
      (consumeWhile isRustWhitespace rest).2 ≠ [] →
      (∃ t st', pull ⟨pos, rest⟩ = some (t, st'))
      ∨ ((lex (consumeWhile isRustWhitespace rest).2).1 = none
         ∧ ∃ c cs, (consumeWhile isRustWhitespace rest).2 = c :: cs
             ∧ (c.isDigit = true ∨ c = '-')))
    ∧ tokens "@" = [Token.Unknown '@']
    ∧ tokens "\"ab" = [Token.UnterminatedString]
    ∧ tokens "'a" = [Token.UnterminatedChar]
    ∧ tokens "'ab'" = [Token.InvalidCharLiteral, Token.UnterminatedChar]
    ∧ tokens "#*ab" = [Token.UnterminatedComment "ab"]
    ∧ tokens "@ 1" = [Token.Unknown '@', Token.Int 1] := by
  refine ⟨?_, rfl, rfl, rfl, rfl, rfl, rfl⟩
  intro pos rest hne
  cases hp : pull ⟨pos, rest⟩ with
  | some p =>
    obtain ⟨t0, st0⟩ := p
    exact Or.inl ⟨t0, st0, rfl⟩
  | none =>
    right
    rw [pull.eq_def] at hp
    split at hp
    · rename_i heq
      have h0 : (lex (consumeWhile isRustWhitespace rest).2).1 = none := by
        rw [heq]
      rcases lex_none h0 with hnil | ⟨c, cs, hcs, hor⟩
      · exact absurd hnil hne
      · exact ⟨h0, c, cs, hcs, hor⟩
    · simp at hp

/-- C1 counterexample: on an integer literal exceeding `i64::MAX` the very
first pull returns the end-of-stream signal although non-whitespace input
remains — the tokenizer does terminate the stream early, with no sentinel
token. -/
theorem claim_C1_counterexample :
    pull ⟨0, "99999999999999999999".toList⟩ = none
    ∧ "99999999999999999999".toList ≠ []
    ∧ "99999999999999999999".toList.all isRustWhitespace = false :=
  ⟨rfl, by decide, by decide⟩

/-- Witness for `claim_C1_sentinel_stream` at the concrete input `"@"`. -/
theorem claim_C1_witness :
    ((consumeWhile isRustWhitespace "@".toList).2 ≠ [])
    ∧ ((∃ t st', pull ⟨0, "@".toList⟩ = some (t, st'))
       ∨ ((lex (consumeWhile isRustWhitespace "@".toList).2).1 = none
          ∧ ∃ c cs, (consumeWhile isRustWhitespace "@".toList).2 = c :: cs
              ∧ (c.isDigit = true ∨ c = '-'))) :=
  ⟨by decide, claim_C1_sentinel_stream.1 0 "@".toList (by decide)⟩

/-- C2 (corrected).  The pull loop always reaches the end-of-stream signal
after finitely many pulls (`pull` of the final state is `none`), and the
input decomposes into the produced tokens\' whitespace gaps and span-exact
lexemes followed by the unconsumed remainder; the remainder is entirely
whitespace — full coverage, as the claim states — except when the stream
was ended early by a numeric lexeme whose parse fails (i64 overflow), in
which case that lexeme and everything after it stay uncovered. -/
theorem claim_C2_totality_coverage (source : List Char) :
    pull (lexAll source).2 = none
    ∧ Covers 0 source (lexAll source).1 (lexAll source).2.rest
    ∧ ((lexAll source).2.rest.all isRustWhitespace = true
        ∨ ∃ c cs, (consumeWhile isRustWhitespace (lexAll source).2.rest).2 = c :: cs
            ∧ (c.isDigit = true ∨ c = '-')) := by
  have h := lexRunF_spec (source.length + 1) ⟨0, source⟩ (by simp)
  exact ⟨h.2.1, h.1, pull_none_cases h.2.1⟩

/-- C2 counterexample: lexing the 20-digit literal `-9223372036854775808`
(whose unsigned digit slice `9223372036854775808` exceeds `i64::MAX`)
produces no token at all, yet the input is nonempty non-whitespace — the
spans plus whitespace gaps cannot reconstruct the input. -/
theorem claim_C2_counterexample :
    (lexAll "-9223372036854775808".toList).1 = []
    ∧ "-9223372036854775808".toList ≠ []
    ∧ "-9223372036854775808".toList.all isRustWhitespace = false :=
  ⟨rfl, by decide, by decide⟩

/-- C3 (corrected).  Each of the sixteen reserved words other than
`true`/`false` lexes to its dedicated keyword tag (case-sensitive, exact
match, maximal munch), but `true` and `false` lex to the boolean literal
tokens `Bool(true)`/`Bool(false)`, not to dedicated `True`/`False` keyword
tags. -/
theorem claim_C3_keyword_tokens :
    tokens "break" = [Token.Break] ∧ tokens "const" = [Token.Const]
    ∧ tokens "continue" = [Token.Continue] ∧ tokens "enum" = [Token.Enum]
    ∧ tokens "fn" = [Token.Fn] ∧ tokens "for" = [Token.For]
    ∧ tokens "let" = [Token.Let] ∧ tokens "loop" = [Token.Loop]
    ∧ tokens "match" = [Token.Match] ∧ tokens "mod" = [Token.Mod]
    ∧ tokens "mut" = [Token.Mut] ∧ tokens "proto" = [Token.Proto]
    ∧ tokens "pub" = [Token.Pub] ∧ tokens "struct" = [Token.Struct]
    ∧ tokens "use" = [Token.Use] ∧ tokens "while" = [Token.While]
    ∧ tokens "true" = [Token.Bool true] ∧ tokens "false" = [Token.Bool false]
    ∧ tokens "Break" = [Token.Identifier "Break"]
    ∧ tokens "forever" = [Token.Identifier "forever"] :=
  ⟨rfl, rfl, rfl, rfl, rfl, rfl, rfl, rfl, rfl, rfl,
   rfl, rfl, rfl, rfl, rfl, rfl, rfl, rfl, rfl, rfl⟩

/-- C3 counterexample: the input `true` does not yield the dedicated
`True` keyword token (and `false` does not yield `False`); both yield
`Bool` literal tokens. -/
theorem claim_C3_counterexample :
    tokens "true" = [Token.Bool true] ∧ tokens "true" ≠ [Token.True]
    ∧ tokens "false" = [Token.Bool false] ∧ tokens "false" ≠ [Token.False] := by
  refine ⟨rfl, ?_, rfl, ?_⟩ <;>
  · intro h
    injection h with h1 h2
    exact Token.noConfusion h1

/-- C4 (confirmed).  Spans are monotone: for every two produced tokens
with `t1` pulled before `t2` (pairwise, not just adjacent),
`t1.span.end ≤ t2.span.start`; every span satisfies `start ≤ stop`; and
the input decomposes (`Covers`) so that all skipped whitespace lies in
the gaps between one token\'s end and the next token\'s start. -/
theorem claim_C4_monotonic_spans (source : List Char) :
    List.Pairwise (fun a b => a.span.stop ≤ b.span.start) (lexAll source).1
    ∧ (∀ t ∈ (lexAll source).1, t.span.start ≤ t.span.stop)
    ∧ Covers 0 source (lexAll source).1 (lexAll source).2.rest := by
  have h := lexRunF_spec (source.length + 1) ⟨0, source⟩ (by simp)
  exact ⟨covers_pairwise h.1, fun t ht => (covers_mem_spans h.1 t ht).2, h.1⟩

/-- Witness for `claim_C4_monotonic_spans` at the concrete input `"a b"`. -/
theorem claim_C4_witness :
    (⟨Token.Identifier "a", ⟨0, 1⟩⟩ : WithSpan Token).span.start ≤
      (⟨Token.Identifier "a", ⟨0, 1⟩⟩ : WithSpan Token).span.stop :=
  (claim_C4_monotonic_spans "a b".toList).2.1 _ (by
    have h : (lexAll "a b".toList).1 =
        [⟨Token.Identifier "a", ⟨0, 1⟩⟩, ⟨Token.Identifier "b", ⟨2, 3⟩⟩] := rfl
    rw [h]
    exact List.Mem.head _)

/-- C5 (confirmed).  Lexing `'AB'` yields exactly `InvalidCharLiteral`
(spanning the quote, `A`, and the consumed non-quote `B`) followed by
`UnterminatedChar` (the real closing quote starting a fresh char scan that
hits end of input), with no resynchronization and nothing else. -/
theorem claim_C5_invalid_char_cascade :
    lexAll "'AB'".toList =
      ([⟨Token.InvalidCharLiteral, ⟨0, 3⟩⟩, ⟨Token.UnterminatedChar, ⟨3, 4⟩⟩],
       ⟨4, []⟩) := rfl

/-- C6 (confirmed).  `-` immediately followed by a decimal digit enters
the number scanner (sign folded: the result is the negation of the token
the positive digit text would parse to, the `-` never part of the parsed
slice), `"-10"` lexes to the single token `Int(-10)`, `->` to `Arrow`,
and any other `-` to `Minus`. -/
theorem claim_C6_sign_folding :
    tokens "-10" = [Token.Int (-10)]
    ∧ tokens "->" = [Token.Arrow]
    ∧ tokens "-" = [Token.Minus]
    ∧ tokens "-x" = [Token.Minus, Token.Identifier "x"]
    ∧ (∀ (d : Char) (cs : List Char), d.isDigit = true →
        lex ('-' :: d :: cs) = lexNumber d true cs)
    ∧ (∀ (d : Char) (cs : List Char),
        (lexNumber d true cs).1 = Option.map tokNeg (lexNumber d false cs).1
        ∧ (lexNumber d true cs).2 = (lexNumber d false cs).2) := by
  refine ⟨rfl, rfl, rfl, rfl, ?_, ?_⟩
  · intro d cs hd
    simp [lex, hd]
  · intro d cs
    unfold lexNumber
    split <;> refine ⟨?_, rfl⟩ <;> rw [Option.map_map] <;>
      exact Option.map_congr (fun a _ => by simp [tokNeg])

/-- Witness for `claim_C6_sign_folding` at `d = \'1\'`, `cs = "0"`. -/
theorem claim_C6_witness :
    Char.isDigit '1' = true
    ∧ lex ('-' :: '1' :: "0".toList) = lexNumber '1' true "0".toList :=
  ⟨by decide, claim_C6_sign_folding.2.2.2.2.1 '1' "0".toList (by decide)⟩

/-- C7 (confirmed).  Inside a string literal each of the five recognized
escapes decodes to its control/quote character, any other escaped
character keeps the backslash literally followed by that character, and
the concrete input `"invalid \\q escape"` decodes accordingly. -/
theorem claim_C7_string_escapes :
    tokens "\"invalid \\q escape\"" = [Token.String "invalid \\q escape"]
    ∧ (∀ (c : Char) (cs : List Char) (v : String),
        c ≠ 'n' → c ≠ 'r' → c ≠ 't' → c ≠ '\\' → c ≠ '"' →
        lexStringGo (c :: cs) true v = lexStringGo cs false ((v.push '\\').push c))
    ∧ (∀ (cs : List Char) (v : String),
        lexStringGo ('n' :: cs) true v = lexStringGo cs false (v.push '\n')
        ∧ lexStringGo ('r' :: cs) true v = lexStringGo cs false (v.push '\r')
        ∧ lexStringGo ('t' :: cs) true v = lexStringGo cs false (v.push '\t')
        ∧ lexStringGo ('\\' :: cs) true v = lexStringGo cs false (v.push '\\')
        ∧ lexStringGo ('"' :: cs) true v = lexStringGo cs false (v.push '"')) := by
  refine ⟨rfl, ?_, ?_⟩
  · intro c cs v h1 h2 h3 h4 h5
    simp [lexStringGo, h1, h2, h3, h4, h5]
  · intro cs v
    exact ⟨rfl, rfl, rfl, rfl, rfl⟩

/-- Witness for `claim_C7_string_escapes` at `c = \'q\'`. -/
theorem claim_C7_witness :
    ('q' ≠ 'n' ∧ 'q' ≠ 'r' ∧ 'q' ≠ 't' ∧ 'q' ≠ '\\' ∧ 'q' ≠ '"')
    ∧ lexStringGo ('q' :: []) true "invalid " =
        lexStringGo [] false (("invalid ".push '\\').push 'q') :=
  ⟨⟨by decide, by decide, by decide, by decide, by decide⟩,
   claim_C7_string_escapes.2.1 'q' [] "invalid "
     (by decide) (by decide) (by decide) (by decide) (by decide)⟩

/-- C8 (confirmed).  A terminated multi-line comment\'s text is strictly
between the `#*` and `*#` delimiters (`"#* a *#"` lexes to
`Comment(" a ")`), and when end of input is reached before the literal
sequence `*#`, the token is the `UnterminatedComment` sentinel carrying
exactly all text from just after `#*` to the end of input. -/
theorem claim_C8_comment_slicing :
    tokens "#* a *#" = [Token.Comment " a "]
    ∧ tokens "#*ab" = [Token.UnterminatedComment "ab"]
    ∧ (∀ cs : List Char, (commentLoop cs).2.1 = false →
        lex ('#' :: '*' :: cs) =
          (some (Token.UnterminatedComment (String.mk cs)), [])) := by
  refine ⟨rfl, rfl, ?_⟩
  intro cs h
  obtain ⟨ha, hb⟩ := commentLoop_unterminated h
  simp [lex, lexComment, h, ha, hb]

/-- Witness for `claim_C8_comment_slicing` at `cs = "ab"`. -/
theorem claim_C8_witness :
    (commentLoop "ab".toList).2.1 = false
    ∧ lex ('#' :: '*' :: "ab".toList) =
        (some (Token.UnterminatedComment (String.mk "ab".toList)), []) :=
  ⟨by decide, claim_C8_comment_slicing.2.2 "ab".toList (by decide)⟩

/-- C9 (confirmed).  Every produced span\'s endpoints are UTF-8 character
boundaries of the source, the checked slice of every span succeeds (on a
nonempty lexeme), the final cursor position is a boundary, and checked
slicing between any two ordered boundary cursor positions succeeds — the
panicking/`None` branches of the lexer\'s source slicing are unreachable. -/
theorem claim_C9_utf8_boundary_safety (source : List Char) :
    (∀ t ∈ (lexAll source).1,
      IsBoundary source t.span.start ∧ IsBoundary source t.span.stop ∧
      ∃ lexeme, lexeme ≠ [] ∧
        sliceGet source t.span.start t.span.stop = some lexeme)
    ∧ IsBoundary source (lexAll source).2.pos
    ∧ (∀ a b : Nat, IsBoundary source a → IsBoundary source b → a ≤ b →
        ∃ mid, sliceGet source a b = some mid) := by
  have h := lexRunF_spec (source.length + 1) ⟨0, source⟩ (by simp)
  have hs := covers_slices h.1 [] (by simp [utf8Len])
  refine ⟨?_, ?_, ?_⟩
  · intro t ht
    obtain ⟨lexeme, hne, hslice, hb1, hb2⟩ := hs t ht
    exact ⟨hb1, hb2, lexeme, hne, hslice⟩
  · obtain ⟨-, -, done, hdone, hpos⟩ := h
    refine ⟨done, (lexAll source).2.rest, hdone, ?_⟩
    have h2 : (lexAll source).2.pos = 0 + utf8Len done := hpos
    omega
  · intro a b ha hb hab
    exact sliceGet_boundaries ha hb hab

/-- Witness for `claim_C9_utf8_boundary_safety` at the two-byte character
input `"λx"`. -/
theorem claim_C9_witness :
    ((⟨Token.Unknown 'λ', ⟨0, 2⟩⟩ : WithSpan Token) ∈ (lexAll "λx".toList).1)
    ∧ (IsBoundary "λx".toList 0 ∧ IsBoundary "λx".toList 2 ∧
       ∃ lexeme, lexeme ≠ [] ∧ sliceGet "λx".toList 0 2 = some lexeme) :=
  ⟨by
    have h : (lexAll "λx".toList).1 =
        [⟨Token.Unknown 'λ', ⟨0, 2⟩⟩, ⟨Token.Identifier "x", ⟨2, 3⟩⟩] := rfl
    rw [h]
    exact List.Mem.head _,
   (claim_C9_utf8_boundary_safety "λx".toList).1
    ⟨Token.Unknown 'λ', ⟨0, 2⟩⟩ (by
      have h : (lexAll "λx".toList).1 =
          [⟨Token.Unknown 'λ', ⟨0, 2⟩⟩, ⟨Token.Identifier "x", ⟨2, 3⟩⟩] := rfl
      rw [h]
      exact List.Mem.head _)⟩

/-- C10 (confirmed).  No produced token is ever the `Token::True` or
`Token::False` variant: although declared, both are unreachable at the
lexer\'s interface (`true`/`false` lex to `Bool` literal tokens). -/
theorem claim_C10_no_true_false_tokens (source : List Char) :
    ∀ t ∈ (lexAll source).1,
      t.value ≠ Token.True ∧ t.value ≠ Token.False :=
  fun t ht => lexRunF_no_kw_bool _ _ t ht

/-- Witness for `claim_C10_no_true_false_tokens` at the input `"true"`. -/
theorem claim_C10_witness :
    ((⟨Token.Bool true, ⟨0, 4⟩⟩ : WithSpan Token) ∈ (lexAll "true".toList).1)
    ∧ ((⟨Token.Bool true, ⟨0, 4⟩⟩ : WithSpan Token).value ≠ Token.True
       ∧ (⟨Token.Bool true, ⟨0, 4⟩⟩ : WithSpan Token).value ≠ Token.False) :=
  ⟨by
    have h : (lexAll "true".toList).1 = [⟨Token.Bool true, ⟨0, 4⟩⟩] := rfl
    rw [h]
    exact List.Mem.head _,
   claim_C10_no_true_false_tokens "true".toList _ (by
    have h : (lexAll "true".toList).1 = [⟨Token.Bool true, ⟨0, 4⟩⟩] := rfl
    rw [h]
    exact List.Mem.head _)⟩

end Rive
